import Mathlib

/-!
Verification of the BoltShard storage engine (src/src/datastore/bolt_shard.go).

The Go file is embedded shallowly:

* byte strings are `List Nat` (`Bytes`);
* a bolt bucket is an association list from key to value, kept sorted by the
  byte-lexicographic order `keyLt` (the order bolt maintains on keys); `Put`
  is the sorted insert-or-overwrite `bput`;
* a bolt database file is a `DB` record holding the three buckets the code
  uses (`series`, `fields`, `data`); `Tx.CreateBucketIfNotExists` is modelled
  as the identity on the contents (a bucket is identified with its entry
  list, an absent bucket with the empty list) together with an injectable
  error from an environment `Env`, since the Go call can fail;
* the shard is a `Shard` record: base directory, the cache of open database
  handles (`dbs`, a list of database names, mirroring the Go map), the
  `closed` flag, and the file system (`files`, an association list from file
  path to database contents, mutated by `mput`/`List.filter`);
* `proto.Buffer.Marshal` of a field value is the value's own
  `marshal : Except String Bytes` component (`error` models a Marshal
  failure);
* `db.Update` runs the transaction body on the current contents and commits
  only on success, which is the bolt contract for write transactions.
-/

/-- A byte string: the model of Go `[]byte` (and of a Go `string`, as its
UTF-8 bytes). -/
abbrev Bytes := List Nat

/-- Byte-lexicographic strict order on byte strings: the order of Go
`bytes.Compare`, which bolt uses to sort keys inside a bucket. -/
def keyLt : Bytes → Bytes → Bool
  | [], [] => false
  | [], _ :: _ => true
  | _ :: _, [] => false
  | a :: x, b :: y => if a < b then true else if a = b then keyLt x y else false

theorem keyLt_irrefl (x : Bytes) : keyLt x x = false := by
  induction x with
  | nil => rfl
  | cons a x ih => simp [keyLt, ih]

theorem keyLt_trans {x y z : Bytes} (h1 : keyLt x y = true)
    (h2 : keyLt y z = true) : keyLt x z = true := by
  induction x generalizing y z with
  | nil =>
    cases y with
    | nil => simp [keyLt] at h1
    | cons b y =>
      cases z with
      | nil => simp [keyLt] at h2
      | cons c z => rfl
  | cons a x ih =>
    cases y with
    | nil => simp [keyLt] at h1
    | cons b y =>
      cases z with
      | nil => simp [keyLt] at h2
      | cons c z =>
        simp only [keyLt] at h1 h2 ⊢
        by_cases hab : a < b
        · by_cases hbc : b < c
          · simp [Nat.lt_trans hab hbc]
          · simp only [if_pos hab] at h1
            by_cases hbceq : b = c
            · subst hbceq; simp [hab]
            · simp [hbc, hbceq] at h2
        · simp only [if_neg hab] at h1
          by_cases habe : a = b
          · subst habe
            simp only [if_pos rfl] at h1
            by_cases hbc : a < c
            · simp [hbc]
            · simp only [if_neg hbc] at h2 ⊢
              by_cases hbceq : a = c
              · subst hbceq
                simp only [if_pos rfl] at h2 ⊢
                exact ih h1 h2
              · simp [hbceq] at h2
          · simp [habe] at h1

theorem keyLt_total {x y : Bytes} (h : x ≠ y) :
    keyLt x y = true ∨ keyLt y x = true := by
  induction x generalizing y with
  | nil =>
    cases y with
    | nil => exact absurd rfl h
    | cons b y => left; rfl
  | cons a x ih =>
    cases y with
    | nil => right; rfl
    | cons b y =>
      by_cases hab : a < b
      · left; simp [keyLt, hab]
      · by_cases habe : a = b
        · subst habe
          have hxy : x ≠ y := by
            intro hcontra; exact h (by rw [hcontra])
          rcases ih hxy with h1 | h1
          · left; simp [keyLt, h1]
          · right; simp [keyLt, h1]
        · have hba : b < a := by omega
          right; simp [keyLt, hba]

theorem keyLt_ne {x y : Bytes} (h : keyLt x y = true) : x ≠ y := by
  intro hcontra; subst hcontra; rw [keyLt_irrefl] at h; exact absurd h (by simp)

/-- Appending a common front segment preserves the comparison. -/
theorem keyLt_append_left (p x y : Bytes) :
    keyLt (p ++ x) (p ++ y) = keyLt x y := by
  induction p with
  | nil => rfl
  | cons a p ih => simp [keyLt, ih]

/-- If two segments of equal length already compare strictly, anything may be
appended after them without changing the outcome. -/
theorem keyLt_append_of_eq_length {x y : Bytes} (u v : Bytes)
    (hlen : x.length = y.length) (h : keyLt x y = true) :
    keyLt (x ++ u) (y ++ v) = true := by
  induction x generalizing y with
  | nil =>
    cases y with
    | nil => simp [keyLt] at h
    | cons b y => simp at hlen
  | cons a x ih =>
    cases y with
    | nil => simp at hlen
    | cons b y =>
      simp only [keyLt, List.cons_append] at h ⊢
      by_cases hab : a < b
      · simp [hab]
      · simp only [if_neg hab] at h ⊢
        by_cases habe : a = b
        · simp only [if_pos habe] at h ⊢
          exact ih (by simpa using hlen) h
        · simp [habe] at h

/-- Association-list lookup, first match wins: the model of reading one key
from a bolt bucket, one handle from the Go map, or one file from the file
system. -/
def alookup {α : Type} (k : Bytes) : List (Bytes × α) → Option α
  | [] => none
  | (k', v) :: t => if k' = k then some v else alookup k t

/-- Sorted insert-or-overwrite: the model of bolt `Bucket.Put`, which keeps
bucket keys in byte order and overwrites an existing key. -/
def bput {α : Type} (k : Bytes) (v : α) : List (Bytes × α) → List (Bytes × α)
  | [] => [(k, v)]
  | (k', v') :: t =>
    if k = k' then (k, v) :: t
    else if keyLt k k' then (k, v) :: (k', v') :: t
    else (k', v') :: bput k v t

/-- Replace-or-append for unordered maps: the model of writing one entry of
the Go handle map or one file of the file system. -/
def mput {α : Type} (k : Bytes) (v : α) : List (Bytes × α) → List (Bytes × α)
  | [] => [(k, v)]
  | (k', v') :: t => if k' = k then (k, v) :: t else (k', v') :: mput k v t

theorem alookup_bput_self {α : Type} (k : Bytes) (v : α)
    (l : List (Bytes × α)) : alookup k (bput k v l) = some v := by
  induction l with
  | nil => simp [bput, alookup]
  | cons h t ih =>
    obtain ⟨k', v'⟩ := h
    by_cases he : k = k'
    · simp [bput, he, alookup]
    · have he2 : k' ≠ k := fun hh => he hh.symm
      by_cases hlt : keyLt k k'
      · simp [bput, he, hlt, alookup]
      · simp [bput, he, hlt, alookup, he2, ih]

theorem alookup_bput_ne {α : Type} {k k2 : Bytes} (v : α)
    (l : List (Bytes × α)) (h : k2 ≠ k) :
    alookup k2 (bput k v l) = alookup k2 l := by
  have h2 : k ≠ k2 := fun hh => h hh.symm
  induction l with
  | nil => simp [bput, alookup, h2]
  | cons hd t ih =>
    obtain ⟨k', v'⟩ := hd
    by_cases he : k = k'
    · subst he
      simp [bput, alookup, h2]
    · by_cases hlt : keyLt k k'
      · simp [bput, he, hlt, alookup, h2]
      · simp [bput, he, hlt, alookup, ih]

theorem alookup_mput_self {α : Type} (k : Bytes) (v : α)
    (l : List (Bytes × α)) : alookup k (mput k v l) = some v := by
  induction l with
  | nil => simp [mput, alookup]
  | cons h t ih =>
    obtain ⟨k', v'⟩ := h
    by_cases he : k' = k
    · simp [mput, he, alookup]
    · simp [mput, he, alookup, ih]

theorem alookup_mput_ne {α : Type} {k k2 : Bytes} (v : α)
    (l : List (Bytes × α)) (h : k2 ≠ k) :
    alookup k2 (mput k v l) = alookup k2 l := by
  have h2 : k ≠ k2 := fun hh => h hh.symm
  induction l with
  | nil => simp [mput, alookup, h2]
  | cons hd t ih =>
    obtain ⟨k', v'⟩ := hd
    by_cases he : k' = k
    · subst he
      simp [mput, alookup, h2]
    · simp [mput, he, alookup, ih]

theorem mput_mput_same {α : Type} (k : Bytes) (v : α)
    (l : List (Bytes × α)) : mput k v (mput k v l) = mput k v l := by
  induction l with
  | nil => simp [mput]
  | cons hd t ih =>
    obtain ⟨k', v'⟩ := hd
    by_cases he : k' = k
    · simp [mput, he]
    · simp [mput, he, ih]

/-- Keys strictly below every key of the list. -/
def keyBelow {α : Type} (k : Bytes) (l : List (Bytes × α)) : Prop :=
  ∀ p ∈ l, keyLt k p.1 = true

/-- Strictly increasing keys: the well-formedness a bolt bucket maintains. -/
def sortedKeys {α : Type} : List (Bytes × α) → Bool
  | [] => true
  | [_] => true
  | a :: b :: t => keyLt a.1 b.1 && sortedKeys (b :: t)

theorem sortedKeys_tail {α : Type} {a : Bytes × α} {t : List (Bytes × α)}
    (h : sortedKeys (a :: t) = true) : sortedKeys t = true := by
  cases t with
  | nil => rfl
  | cons b t =>
    simp only [sortedKeys, Bool.and_eq_true] at h
    exact h.2

theorem sortedKeys_below {α : Type} {a : Bytes × α} {t : List (Bytes × α)}
    (h : sortedKeys (a :: t) = true) : keyBelow a.1 t := by
  induction t generalizing a with
  | nil => intro p hp; simp at hp
  | cons b t ih =>
    intro p hp
    simp only [sortedKeys, Bool.and_eq_true] at h
    rcases List.mem_cons.mp hp with hpb | hpt
    · subst hpb; exact h.1
    · exact keyLt_trans h.1 (ih h.2 p hpt)

theorem sortedKeys_cons_of_below {α : Type} {k0 : Bytes} (v0 : α)
    {t : List (Bytes × α)} (hb : keyBelow k0 t) (ht : sortedKeys t = true) :
    sortedKeys ((k0, v0) :: t) = true := by
  cases t with
  | nil => rfl
  | cons b t =>
    simp only [sortedKeys, Bool.and_eq_true]
    exact ⟨hb b (by simp), ht⟩

theorem mem_bput {α : Type} {p : Bytes × α} {k : Bytes} {v : α}
    {l : List (Bytes × α)} (h : p ∈ bput k v l) : p = (k, v) ∨ p ∈ l := by
  induction l with
  | nil => simp [bput] at h; left; exact h
  | cons hd t ih =>
    obtain ⟨k', v'⟩ := hd
    by_cases he : k = k'
    · simp only [bput, if_pos he] at h
      rcases List.mem_cons.mp h with h1 | h1
      · left; exact h1
      · right; exact List.mem_cons.mpr (Or.inr h1)
    · by_cases hlt : keyLt k k'
      · simp only [bput, if_neg he, if_pos hlt] at h
        rcases List.mem_cons.mp h with h1 | h1
        · left; exact h1
        · right; exact h1
      · simp only [bput, if_neg he, if_neg hlt] at h
        rcases List.mem_cons.mp h with h1 | h1
        · right; exact List.mem_cons.mpr (Or.inl h1)
        · rcases ih h1 with h2 | h2
          · left; exact h2
          · right; exact List.mem_cons.mpr (Or.inr h2)

theorem keyBelow_bput {α : Type} {k0 k : Bytes} {v : α}
    {l : List (Bytes × α)} (hb : keyBelow k0 l) (hk : keyLt k0 k = true) :
    keyBelow k0 (bput k v l) := by
  intro p hp
  rcases mem_bput hp with h1 | h1
  · subst h1; exact hk
  · exact hb p h1

theorem alookup_eq_none_of_below {α : Type} {k : Bytes}
    {l : List (Bytes × α)} (h : keyBelow k l) : alookup k l = none := by
  induction l with
  | nil => rfl
  | cons hd t ih =>
    have hne : hd.1 ≠ k := fun he => by
      have := h hd (by simp)
      rw [he] at this
      rw [keyLt_irrefl] at this
      exact absurd this (by simp)
    obtain ⟨k', v'⟩ := hd
    simp only [alookup, if_neg hne]
    exact ih (fun p hp => h p (by simp [hp]))

theorem sortedKeys_bput {α : Type} (k : Bytes) (v : α)
    {l : List (Bytes × α)} (h : sortedKeys l = true) :
    sortedKeys (bput k v l) = true := by
  induction l with
  | nil => rfl
  | cons hd t ih =>
    obtain ⟨k', v'⟩ := hd
    by_cases he : k = k'
    · subst he
      simp only [bput, if_pos rfl]
      exact sortedKeys_cons_of_below v (sortedKeys_below h) (sortedKeys_tail h)
    · by_cases hlt : keyLt k k'
      · simp only [bput, if_neg he, if_pos hlt]
        refine sortedKeys_cons_of_below v ?_ h
        intro p hp
        rcases List.mem_cons.mp hp with h1 | h1
        · subst h1; exact hlt
        · exact keyLt_trans hlt (sortedKeys_below h p h1)
      · simp only [bput, if_neg he, if_neg hlt]
        have hk'k : keyLt k' k = true := by
          rcases keyLt_total (fun hc => he hc) with h1 | h1
          · exact absurd h1 (by simp [hlt])
          · exact h1
        exact sortedKeys_cons_of_below v'
          (keyBelow_bput (sortedKeys_below h) hk'k) (ih (sortedKeys_tail h))

/-- Two sorted buckets with the same lookup function are the same list. -/
theorem sorted_ext {α : Type} {l m : List (Bytes × α)}
    (hl : sortedKeys l = true) (hm : sortedKeys m = true)
    (h : ∀ k, alookup k l = alookup k m) : l = m := by
  induction l generalizing m with
  | nil =>
    cases m with
    | nil => rfl
    | cons b t =>
      have := h b.1
      obtain ⟨k2, v2⟩ := b
      simp [alookup] at this
  | cons a t ih =>
    cases m with
    | nil =>
      have := h a.1
      obtain ⟨k1, v1⟩ := a
      simp [alookup] at this
    | cons b r =>
      obtain ⟨k1, v1⟩ := a
      obtain ⟨k2, v2⟩ := b
      have hk : k1 = k2 := by
        by_contra hne
        rcases keyLt_total hne with hlt | hlt
        · have hb : keyBelow k1 ((k2, v2) :: r) := by
            intro p hp
            rcases List.mem_cons.mp hp with hpb | hpt
            · subst hpb; exact hlt
            · exact keyLt_trans hlt (sortedKeys_below hm p hpt)
          have h1 := h k1
          rw [alookup_eq_none_of_below hb] at h1
          simp [alookup] at h1
        · have hb : keyBelow k2 ((k1, v1) :: t) := by
            intro p hp
            rcases List.mem_cons.mp hp with hpb | hpt
            · subst hpb; exact hlt
            · exact keyLt_trans hlt (sortedKeys_below hl p hpt)
          have h1 := h k2
          rw [alookup_eq_none_of_below hb] at h1
          simp [alookup] at h1
      subst hk
      have hv : v1 = v2 := by
        have h1 := h k1
        simpa [alookup] using h1
      subst hv
      have htails : ∀ k, alookup k t = alookup k r := by
        intro k
        by_cases hke : k1 = k
        · subst hke
          rw [alookup_eq_none_of_below (sortedKeys_below hl),
            alookup_eq_none_of_below (sortedKeys_below hm)]
        · have h1 := h k
          simpa [alookup, hke] using h1
      rw [ih (sortedKeys_tail hl) (sortedKeys_tail hm) htails]

/-- Folding a list of puts over a bucket, in order: the sequence of `Put`
calls a successful write transaction performs on one bucket. -/
def applyPuts {α : Type} (P : List (Bytes × α)) (l : List (Bytes × α)) :
    List (Bytes × α) :=
  P.foldl (fun acc kv => bput kv.1 kv.2 acc) l

/-- The value of the last put to key `k` in the sequence, if any. -/
def lastPut {α : Type} : List (Bytes × α) → Bytes → Option α
  | [], _ => none
  | kv :: rest, k =>
    match lastPut rest k with
    | some v => some v
    | none => if kv.1 = k then some kv.2 else none

theorem applyPuts_nil {α : Type} (l : List (Bytes × α)) :
    applyPuts [] l = l := rfl

theorem applyPuts_cons {α : Type} (kv : Bytes × α) (P : List (Bytes × α))
    (l : List (Bytes × α)) :
    applyPuts (kv :: P) l = applyPuts P (bput kv.1 kv.2 l) := rfl

theorem applyPuts_singleton {α : Type} (kv : Bytes × α)
    (l : List (Bytes × α)) : applyPuts [kv] l = bput kv.1 kv.2 l := rfl

theorem applyPuts_append {α : Type} (A B : List (Bytes × α))
    (l : List (Bytes × α)) :
    applyPuts (A ++ B) l = applyPuts B (applyPuts A l) := by
  simp [applyPuts, List.foldl_append]

theorem sortedKeys_applyPuts {α : Type} (P : List (Bytes × α))
    {l : List (Bytes × α)} (h : sortedKeys l = true) :
    sortedKeys (applyPuts P l) = true := by
  induction P generalizing l with
  | nil => exact h
  | cons kv P ih => exact ih (sortedKeys_bput kv.1 kv.2 h)

/-- Last write wins: lookup after a put sequence is the last put value, or
the original binding when the sequence never writes the key. -/
theorem alookup_applyPuts {α : Type} (P : List (Bytes × α))
    (l : List (Bytes × α)) (k : Bytes) :
    alookup k (applyPuts P l) = (lastPut P k).or (alookup k l) := by
  induction P generalizing l with
  | nil => simp [applyPuts, lastPut]
  | cons kv P ih =>
    rw [applyPuts_cons, ih]
    cases hlast : lastPut P k with
    | some v => simp [lastPut, hlast]
    | none =>
      by_cases he : kv.1 = k
      · subst he
        simp [lastPut, hlast, alookup_bput_self]
      · simp [lastPut, hlast, he, alookup_bput_ne _ _ (fun hh => he hh.symm)]

theorem applyPuts_applyPuts {α : Type} (P : List (Bytes × α))
    {l : List (Bytes × α)} (h : sortedKeys l = true) :
    applyPuts P (applyPuts P l) = applyPuts P l := by
  refine sorted_ext (sortedKeys_applyPuts P (sortedKeys_applyPuts P h))
    (sortedKeys_applyPuts P h) (fun k => ?_)
  rw [alookup_applyPuts, alookup_applyPuts]
  cases lastPut P k <;> simp

theorem lastPut_none_not_mem {α : Type} {P : List (Bytes × α)} {k : Bytes}
    (h : lastPut P k = none) : k ∉ P.map Prod.fst := by
  induction P with
  | nil => simp
  | cons kv P ih =>
    simp only [lastPut] at h
    cases hlast : lastPut P k with
    | some v => rw [hlast] at h; simp at h
    | none =>
      rw [hlast] at h
      simp only [List.map_cons, List.mem_cons]
      intro hmem
      rcases hmem with h1 | h1
      · rw [h1] at h; simp at h
      · exact ih hlast h1

theorem lastPut_some_mem {α : Type} {P : List (Bytes × α)} {k : Bytes}
    {v : α} (h : lastPut P k = some v) : (k, v) ∈ P := by
  induction P with
  | nil => simp [lastPut] at h
  | cons kv P ih =>
    simp only [lastPut] at h
    cases hlast : lastPut P k with
    | some v2 =>
      rw [hlast] at h
      cases h
      exact List.mem_cons.mpr (Or.inr (ih hlast))
    | none =>
      rw [hlast] at h
      by_cases he : kv.1 = k
      · rw [if_pos he] at h
        cases h
        have : kv = (k, kv.2) := by
          rw [← he]
        rw [← this]
        exact List.mem_cons_self kv P
      · simp [he] at h

theorem lastPut_const {α : Type} {P : List (Bytes × α)} {c : α}
    (hc : ∀ kv ∈ P, kv.2 = c) {k : Bytes} (hk : k ∈ P.map Prod.fst) :
    lastPut P k = some c := by
  induction P with
  | nil => simp at hk
  | cons kv P ih =>
    simp only [lastPut]
    cases hlast : lastPut P k with
    | some v =>
      have := lastPut_some_mem hlast
      have hv := hc (k, v) (List.mem_cons.mpr (Or.inr this))
      simp at hv
      rw [hv]
    | none =>
      have hnot := lastPut_none_not_mem hlast
      simp only [List.map_cons, List.mem_cons] at hk
      rcases hk with h1 | h1
      · rw [if_pos h1.symm]
        rw [hc kv (by simp)]
      · exact absurd h1 hnot

/-- Fixed-width big-endian encoding of a natural number, most significant
byte first: the model of Go binary.Write with binary.BigEndian at a uint64
(lines 163-164 use width 8). -/
def beBytes : Nat → Nat → Bytes
  | 0, _ => []
  | w + 1, n => (n / 256 ^ w % 256) :: beBytes w (n % 256 ^ w)

/-- The numeric value a big-endian byte string denotes. -/
def beVal : Bytes → Nat
  | [] => 0
  | b :: rest => b * 256 ^ rest.length + beVal rest

theorem beBytes_length (w n : Nat) : (beBytes w n).length = w := by
  induction w generalizing n with
  | zero => rfl
  | succ w ih => simp [beBytes, ih]

theorem beVal_beBytes {w n : Nat} (h : n < 256 ^ w) :
    beVal (beBytes w n) = n := by
  induction w generalizing n with
  | zero => simp at h; simp [beBytes, beVal, h]
  | succ w ih =>
    have hdiv : n / 256 ^ w < 256 := by
      rw [Nat.div_lt_iff_lt_mul (Nat.pos_pow_of_pos w (by norm_num))]
      calc n < 256 ^ (w + 1) := h
        _ = 256 * 256 ^ w := by ring
    have hmod : n % 256 ^ w < 256 ^ w :=
      Nat.mod_lt n (Nat.pos_pow_of_pos w (by norm_num))
    simp only [beBytes, beVal, beBytes_length, ih hmod,
      Nat.mod_eq_of_lt hdiv]
    exact Nat.div_add_mod' n (256 ^ w)

theorem beBytes_keyLt {w a b : Nat} (hab : a < b) (hb : b < 256 ^ w) :
    keyLt (beBytes w a) (beBytes w b) = true := by
  induction w generalizing a b with
  | zero => simp at hb; omega
  | succ w ih =>
    have ha' : a / 256 ^ w < 256 := by
      rw [Nat.div_lt_iff_lt_mul (Nat.pos_pow_of_pos w (by norm_num))]
      calc a < 256 ^ (w + 1) := lt_trans hab hb
        _ = 256 * 256 ^ w := by ring
    have hb' : b / 256 ^ w < 256 := by
      rw [Nat.div_lt_iff_lt_mul (Nat.pos_pow_of_pos w (by norm_num))]
      calc b < 256 ^ (w + 1) := hb
        _ = 256 * 256 ^ w := by ring
    simp only [beBytes, keyLt, Nat.mod_eq_of_lt ha', Nat.mod_eq_of_lt hb']
    by_cases hlt : a / 256 ^ w < b / 256 ^ w
    · simp [hlt]
    · have hle : a / 256 ^ w ≤ b / 256 ^ w :=
        Nat.div_le_div_right (Nat.le_of_lt hab)
      have heq : a / 256 ^ w = b / 256 ^ w := by omega
      have hmodlt : a % 256 ^ w < b % 256 ^ w := by
        have h1 := Nat.div_add_mod a (256 ^ w)
        have h2 := Nat.div_add_mod b (256 ^ w)
        rw [heq] at h1
        omega
      have hmb : b % 256 ^ w < 256 ^ w :=
        Nat.mod_lt b (Nat.pos_pow_of_pos w (by norm_num))
      simp [hlt, heq, ih hmodlt hmb]

/-- Modelled from the spec: the helper `itou` called at line 156 of
bolt_shard.go is repository code that is not under src/. The spec says the
data key carries an "8-byte big-endian unsigned timestamp" (section 6) while
keys of one series "sort first by timestamp" numerically (sections 3 and 8),
so `itou` must map the signed 64-bit timestamp to an unsigned 64-bit integer
preserving order: the standard bias by 2 to the 63rd power. -/
def itou (i : Int) : Nat := ((i + 2 ^ 63) % 2 ^ 64).toNat

theorem itou_lt (i : Int) : itou i < 2 ^ 64 := by
  have h1 : (0 : Int) < 2 ^ 64 := by norm_num
  have h2 := Int.emod_lt_of_pos (i + 2 ^ 63) h1
  have h3 := Int.emod_nonneg (i + 2 ^ 63) (by norm_num : (2 : Int) ^ 64 ≠ 0)
  unfold itou
  omega

theorem itou_mono {t1 t2 : Int} (h1 : -(2 ^ 63) ≤ t1) (h2 : t1 < t2)
    (h3 : t2 < 2 ^ 63) : itou t1 < itou t2 := by
  unfold itou
  rw [Int.emod_eq_of_lt (by omega) (by omega),
    Int.emod_eq_of_lt (by omega) (by omega)]
  omega

/-- The three bucket names the write path creates (lines 139, 146, 176): the
literal strings "series", "data" and "fields". -/
inductive BucketName
  | series
  | fields
  | data
deriving DecidableEq, Repr

/-- Failure injection for `Tx.CreateBucketIfNotExists`, per bucket name: the
Go call returns an error the code must propagate; `none` means the call
succeeds. -/
abbrev Env := BucketName → Option String

instance {ε α : Type} [DecidableEq ε] [DecidableEq α] :
    DecidableEq (Except ε α) := fun a b =>
  match a, b with
  | .ok x, .ok y =>
    if h : x = y then isTrue (by rw [h]) else isFalse (by simp [h])
  | .error x, .error y =>
    if h : x = y then isTrue (by rw [h]) else isFalse (by simp [h])
  | .ok _, .error _ => isFalse (by simp)
  | .error _, .ok _ => isFalse (by simp)

/-- A protocol.FieldValue: its IsNull flag and the outcome of
`proto.Buffer.Marshal` on it, with `Except.error` modelling a serialization
failure (lines 167, 171). -/
structure FieldValue where
  isNull : Bool
  marshal : Except String Bytes
deriving DecidableEq, Repr

/-- A protocol.Point: timestamp (int64), sequence number (uint64), and one
value per field position. -/
structure Point where
  timestamp : Int
  sequenceNumber : Nat
  values : List FieldValue
deriving DecidableEq, Repr

/-- A protocol.Series: name, ordered field names, points. -/
structure Series where
  name : Bytes
  fields : List Bytes
  points : List Point
deriving DecidableEq, Repr

/-- One bolt database file: the three buckets the write path uses. A bucket
is identified with its (key-sorted) entry list; a bucket that was never
created is the empty list. -/
structure DB where
  series : List (Bytes × Bytes)
  fields : List (Bytes × Bytes)
  data : List (Bytes × Bytes)
deriving DecidableEq, Repr

/-- A freshly created database file: bolt.Open on an absent path yields a
store with no buckets. -/
def emptyDB : DB := { series := [], fields := [], data := [] }

/-- The BoltShard state (lines 19-24): base directory, the cache of open
per-database handles (the keys of the Go map `dbs`; the handle itself holds
no extra state here because contents live in `files`), the closed flag, and
the file system seen by this shard: an association list from file path to
database contents. -/
structure BoltShard where
  baseDir : Bytes
  dbs : List Bytes
  closed : Bool
  files : List (Bytes × DB)
deriving DecidableEq, Repr

/-- NewBoltShard (lines 26-33), on a file system with no database files. -/
def NewBoltShard (baseDir : Bytes) : BoltShard :=
  { baseDir := baseDir, dbs := [], closed := false, files := [] }

/-- The path of a database file: baseDir + "/" + databaseName
(lines 52, 81, 121); 47 is the slash byte. -/
def dbPath (s : BoltShard) (database : Bytes) : Bytes :=
  s.baseDir ++ [47] ++ database

/-- The fields bucket key: seriesName + "\x00" + field (line 181). -/
def fieldsKey (name f : Bytes) : Bytes := name ++ [0] ++ f

/-- The contents of `keyBuffer` after lines 159-164: series name, one zero
byte, the 8-byte big-endian converted timestamp, the 8-byte big-endian
sequence number. -/
def keyBufferBytes (name : Bytes) (ts : Int) (sq : Nat) : Bytes :=
  name ++ [0] ++ beBytes 8 (itou ts) ++ beBytes 8 sq

/-- The data bucket key (line 184): the key buffer followed directly by the
field name. -/
def dataKeyGo (name : Bytes) (ts : Int) (sq : Nat) (f : Bytes) : Bytes :=
  keyBufferBytes name ts sq ++ f

/-- The inner field loop of the transaction (lines 166-186) over the pairs
of field name and field value of one point: skip null values; marshal the
value (propagating a failure); create the fields bucket (propagating a
failure); register the (series, field) pair; write the data entry. The Go
loop reads `point.Values[fieldIndex]` for each index of `serie.Fields`,
which is the zip of the two lists (Go panics when Values is shorter; the
claims concern length-matched points). -/
def writeFields (env : Env) (name pre : Bytes) :
    List (Bytes × FieldValue) → DB → Except String DB
  | [], d => .ok d
  | (f, v) :: rest, d =>
    if v.isNull then writeFields env name pre rest d
    else
      match v.marshal with
      | .error e => .error e
      | .ok bytes =>
        match env .fields with
        | some e => .error e
        | none =>
          writeFields env name pre rest
            { d with
              fields := bput (fieldsKey name f) [] d.fields,
              data := bput (pre ++ f) bytes d.data }

/-- The point loop of the transaction (lines 154-187): build the key buffer
for the point, then run the field loop. -/
def writePoints (env : Env) (serie : Series) :
    List Point → DB → Except String DB
  | [], d => .ok d
  | p :: ps, d =>
    match writeFields env serie.name
        (keyBufferBytes serie.name p.timestamp p.sequenceNumber)
        (serie.fields.zip p.values) d with
    | .error e => .error e
    | .ok d' => writePoints env serie ps d'

/-- One iteration of the series loop (lines 132-188): skip an empty series
name; create the series bucket (propagating a failure) and register the
series name with a nil value; create the data bucket (propagating a
failure); run the point loop. -/
def writeSerie (env : Env) (serie : Series) (d : DB) : Except String DB :=
  if serie.name = [] then .ok d
  else
    match env .series with
    | some e => .error e
    | none =>
      let d1 := { d with series := bput serie.name [] d.series }
      match env .data with
      | some e => .error e
      | none => writePoints env serie serie.points d1

/-- The whole transaction body passed to db.Update (lines 130-191): the
series loop, stopping at the first error. -/
def writeTx (env : Env) : List Series → DB → Except String DB
  | [], d => .ok d
  | serie :: rest, d =>
    match writeSerie env serie d with
    | .error e => .error e
    | .ok d' => writeTx env rest d'

/-- The shared get-or-open step (lines 114-127 of Write, 73-87 of Query):
return the shard unchanged when the handle is cached; otherwise open the
database file, creating it when absent (bolt.Open creates a missing file),
and cache the handle. Open failures of the underlying store are not
modelled: in the model bolt.Open always succeeds. -/
def openStep (database : Bytes) (s : BoltShard) : BoltShard :=
  if s.dbs.contains database then s
  else
    { s with
      dbs := s.dbs ++ [database],
      files :=
        if (alookup (dbPath s database) s.files).isSome then s.files
        else mput (dbPath s database) emptyDB s.files }

/-- Write (lines 104-192): fail when the shard is closed; get or open the
database handle; run the transaction body under db.Update, which commits
the new contents on success and keeps the old contents on error. -/
def Write (env : Env) (database : Bytes) (series : List Series)
    (s : BoltShard) : Option String × BoltShard :=
  if s.closed then (some "shard closed", s)
  else
    let s1 := openStep database s
    match writeTx env series ((alookup (dbPath s database) s1.files).getD emptyDB) with
    | .error e => (some e, s1)
    | .ok d' => (none, { s1 with files := mput (dbPath s database) d' s1.files })

/-- DropDatabase (lines 35-53): a cached handle is closed and removed from
the map, then the backing file is deleted with os.Remove, whose error is
returned (in the model os.Remove fails exactly when the file is absent);
with no cached handle, return nil without touching anything. -/
def DropDatabase (database : Bytes) (s : BoltShard) :
    Option String × BoltShard :=
  if s.dbs.contains database then
    let s' := { s with dbs := s.dbs.filter (fun n => decide (n ≠ database)) }
    if (alookup (dbPath s database) s.files).isSome then
      (none, { s' with
               files := s.files.filter (fun p => decide (p.1 ≠ dbPath s database)) })
    else
      (some "remove: no such file or directory", s')
  else (none, s)

/-- The close method (lines 55-64, called closeAll in the spec): close and
evict every cached handle and set the closed flag. It returns nothing, so
it cannot fail. -/
def closeAll (s : BoltShard) : BoltShard :=
  { s with dbs := [], closed := true }

/-- IsClosed (lines 66-68); namespaced because Mathlib already uses the
bare name. -/
def BoltShard.IsClosed (s : BoltShard) : Bool := s.closed

/-- Query (lines 70-102), reduced to its effect on the shard: the querySpec
collaborator contributes only its database name, and the four execute
handlers (lines 92-98) are methods whose bodies are not under src/.
Modelled from the spec: per sections 2 and 4.4 the handlers read from the
database store and stream rows into the processor sink, so their outcome is
abstracted as `handlerResult` and they leave the handle cache untouched.
Note that the source performs no closed-flag check and takes no lock on
this path before caching a freshly opened handle. -/
def Query (handlerResult : Option String) (database : Bytes)
    (s : BoltShard) : Option String × BoltShard :=
  (handlerResult, openStep database s)

/-- The fields bucket puts the field loop performs for one point: one entry
per non-null pair. -/
def fieldsPutsOfPairs (name : Bytes) (pairs : List (Bytes × FieldValue)) :
    List (Bytes × Bytes) :=
  pairs.filterMap fun fv =>
    if fv.2.isNull then none else some (fieldsKey name fv.1, [])

/-- The data bucket puts the field loop performs for one point. -/
def dataPutsOfPairs (pre : Bytes) (pairs : List (Bytes × FieldValue)) :
    List (Bytes × Bytes) :=
  pairs.filterMap fun fv =>
    if fv.2.isNull then none
    else some (pre ++ fv.1, fv.2.marshal.toOption.getD [])

/-- All fields bucket puts of one series entry. -/
def serieFieldsPuts (serie : Series) : List (Bytes × Bytes) :=
  serie.points.flatMap fun p =>
    fieldsPutsOfPairs serie.name (serie.fields.zip p.values)

/-- All data bucket puts of one series entry. -/
def serieDataPuts (serie : Series) : List (Bytes × Bytes) :=
  serie.points.flatMap fun p =>
    dataPutsOfPairs (keyBufferBytes serie.name p.timestamp p.sequenceNumber)
      (serie.fields.zip p.values)

/-- The series bucket puts of a batch: one nil-valued entry per non-empty
series name. -/
def seriesPuts (batch : List Series) : List (Bytes × Bytes) :=
  batch.filterMap fun serie =>
    if serie.name = [] then none else some (serie.name, [])

/-- The fields bucket puts of a batch, in execution order. -/
def fieldsPuts (batch : List Series) : List (Bytes × Bytes) :=
  batch.flatMap fun serie =>
    if serie.name = [] then [] else serieFieldsPuts serie

/-- The data bucket puts of a batch, in execution order. -/
def dataPuts (batch : List Series) : List (Bytes × Bytes) :=
  batch.flatMap fun serie =>
    if serie.name = [] then [] else serieDataPuts serie

/-- Whether the field loop gets through one pair without an error. -/
def pairOk (env : Env) (fv : Bytes × FieldValue) : Bool :=
  fv.2.isNull ||
    (match fv.2.marshal with
     | .ok _ => (env .fields).isNone
     | .error _ => false)

/-- Whether one iteration of the series loop succeeds; independent of the
store contents. -/
def serieOk (env : Env) (serie : Series) : Bool :=
  serie.name.isEmpty ||
    ((env .series).isNone && (env .data).isNone &&
      serie.points.all fun p => (serie.fields.zip p.values).all (pairOk env))

/-- Whether the whole transaction body succeeds. -/
def txOk (env : Env) (batch : List Series) : Bool := batch.all (serieOk env)

theorem writeFields_ok {env : Env} {name pre : Bytes}
    {pairs : List (Bytes × FieldValue)} {d d' : DB}
    (h : writeFields env name pre pairs d = .ok d') :
    d'.series = d.series ∧
    d'.fields = applyPuts (fieldsPutsOfPairs name pairs) d.fields ∧
    d'.data = applyPuts (dataPutsOfPairs pre pairs) d.data := by
  induction pairs generalizing d with
  | nil =>
    cases h
    exact ⟨rfl, rfl, rfl⟩
  | cons fv rest ih =>
    obtain ⟨f, v⟩ := fv
    by_cases hnull : v.isNull
    · rw [writeFields, if_pos hnull] at h
      simpa [fieldsPutsOfPairs, dataPutsOfPairs, hnull] using ih h
    · rw [writeFields, if_neg hnull] at h
      cases hm : v.marshal with
      | error e => rw [hm] at h; exact absurd h (by simp)
      | ok bytes =>
        rw [hm] at h
        cases henv : env .fields with
        | some e => rw [henv] at h; exact absurd h (by simp)
        | none =>
          rw [henv] at h
          have := ih h
          simp only [fieldsPutsOfPairs, dataPutsOfPairs, List.filterMap_cons,
            hnull, if_neg, hm] at this ⊢
          simp only [Bool.false_eq_true, ite_false, Except.toOption,
            Option.getD_some]
          rw [applyPuts_cons, applyPuts_cons]
          exact this

theorem writeFields_isOk {env : Env} {name pre : Bytes}
    (pairs : List (Bytes × FieldValue)) (d : DB) :
    (∃ d', writeFields env name pre pairs d = .ok d') ↔
      pairs.all (pairOk env) = true := by
  induction pairs generalizing d with
  | nil => simp [writeFields]
  | cons fv rest ih =>
    obtain ⟨f, v⟩ := fv
    by_cases hnull : v.isNull
    · rw [writeFields, if_pos hnull]
      simp only [List.all_cons, pairOk, hnull, Bool.true_or, Bool.true_and]
      exact ih d
    · rw [writeFields, if_neg hnull]
      cases hm : v.marshal with
      | error e =>
        simp [List.all_cons, pairOk, hnull, hm]
      | ok bytes =>
        cases henv : env .fields with
        | some e => simp [List.all_cons, pairOk, hnull, hm, henv]
        | none =>
          simp only [List.all_cons, pairOk, hnull, hm, henv,
            Option.isNone_none, Bool.false_or, Bool.true_and]
          exact ih _

theorem writePoints_ok {env : Env} {serie : Series} {ps : List Point}
    {d d' : DB} (h : writePoints env serie ps d = .ok d') :
    d'.series = d.series ∧
    d'.fields = applyPuts
      (ps.flatMap fun p => fieldsPutsOfPairs serie.name (serie.fields.zip p.values))
      d.fields ∧
    d'.data = applyPuts
      (ps.flatMap fun p =>
        dataPutsOfPairs (keyBufferBytes serie.name p.timestamp p.sequenceNumber)
          (serie.fields.zip p.values))
      d.data := by
  induction ps generalizing d with
  | nil =>
    cases h
    exact ⟨rfl, rfl, rfl⟩
  | cons p ps ih =>
    rw [writePoints] at h
    cases hw : writeFields env serie.name
        (keyBufferBytes serie.name p.timestamp p.sequenceNumber)
        (serie.fields.zip p.values) d with
    | error e => rw [hw] at h; exact absurd h (by simp)
    | ok d1 =>
      rw [hw] at h
      obtain ⟨hs1, hf1, hd1⟩ := writeFields_ok hw
      obtain ⟨hs2, hf2, hd2⟩ := ih h
      refine ⟨by rw [hs2, hs1], ?_, ?_⟩
      · rw [hf2, hf1, List.flatMap_cons, applyPuts_append]
      · rw [hd2, hd1, List.flatMap_cons, applyPuts_append]

theorem writePoints_isOk {env : Env} {serie : Series} (ps : List Point)
    (d : DB) :
    (∃ d', writePoints env serie ps d = .ok d') ↔
      (ps.all fun p => (serie.fields.zip p.values).all (pairOk env)) = true := by
  induction ps generalizing d with
  | nil => simp [writePoints]
  | cons p ps ih =>
    rw [List.all_cons]
    cases hw : writeFields env serie.name
        (keyBufferBytes serie.name p.timestamp p.sequenceNumber)
        (serie.fields.zip p.values) d with
    | error e =>
      have h1 : ¬(serie.fields.zip p.values).all (pairOk env) = true := by
        intro hc
        obtain ⟨d1, hd1⟩ := (writeFields_isOk _ d).mpr hc
        rw [hw] at hd1
        exact absurd hd1 (by simp)
      simp only [writePoints, hw]
      constructor
      · rintro ⟨d', hd'⟩
        exact absurd hd' (by simp)
      · intro hc
        exact absurd (Bool.and_elim_left hc) h1
    | ok d1 =>
      have h1 : (serie.fields.zip p.values).all (pairOk env) = true :=
        (writeFields_isOk _ d).mp ⟨d1, hw⟩
      simp only [writePoints, hw, h1, Bool.true_and]
      exact ih d1

theorem writeSerie_ok {env : Env} {serie : Series} {d d' : DB}
    (h : writeSerie env serie d = .ok d') :
    d'.series = applyPuts
      (if serie.name = [] then [] else [(serie.name, [])]) d.series ∧
    d'.fields = applyPuts
      (if serie.name = [] then [] else serieFieldsPuts serie) d.fields ∧
    d'.data = applyPuts
      (if serie.name = [] then [] else serieDataPuts serie) d.data := by
  by_cases hname : serie.name = []
  · rw [writeSerie, if_pos hname] at h
    cases h
    simp [hname, applyPuts_nil]
  · rw [writeSerie, if_neg hname] at h
    cases henv1 : env .series with
    | some e => rw [henv1] at h; exact absurd h (by simp)
    | none =>
      rw [henv1] at h
      cases henv2 : env .data with
      | some e => rw [henv2] at h; exact absurd h (by simp)
      | none =>
        rw [henv2] at h
        obtain ⟨hs, hf, hd⟩ := writePoints_ok h
        simp only [if_neg hname]
        refine ⟨?_, ?_, ?_⟩
        · rw [hs]
          simp [applyPuts]
        · rw [hf]
          rfl
        · rw [hd]
          rfl

theorem writeSerie_isOk {env : Env} {serie : Series} (d : DB) :
    (∃ d', writeSerie env serie d = .ok d') ↔ serieOk env serie = true := by
  by_cases hname : serie.name = []
  · simp [writeSerie, hname, serieOk]
  · rw [writeSerie, if_neg hname]
    have hne : serie.name.isEmpty = false := by
      cases hn : serie.name with
      | nil => exact absurd hn hname
      | cons a t => rfl
    cases henv1 : env .series with
    | some e => simp [serieOk, hne, henv1]
    | none =>
      cases henv2 : env .data with
      | some e => simp [serieOk, hne, henv1, henv2]
      | none =>
        simp only [serieOk, hne, henv1, henv2, Option.isNone_none,
          Bool.false_or, Bool.true_and]
        exact writePoints_isOk serie.points _

theorem writeTx_ok {env : Env} {batch : List Series} {d d' : DB}
    (h : writeTx env batch d = .ok d') :
    d'.series = applyPuts (seriesPuts batch) d.series ∧
    d'.fields = applyPuts (fieldsPuts batch) d.fields ∧
    d'.data = applyPuts (dataPuts batch) d.data := by
  induction batch generalizing d with
  | nil =>
    cases h
    exact ⟨rfl, rfl, rfl⟩
  | cons serie rest ih =>
    rw [writeTx] at h
    cases hw : writeSerie env serie d with
    | error e => rw [hw] at h; exact absurd h (by simp)
    | ok d1 =>
      rw [hw] at h
      obtain ⟨hs1, hf1, hd1⟩ := writeSerie_ok hw
      obtain ⟨hs2, hf2, hd2⟩ := ih h
      refine ⟨?_, ?_, ?_⟩
      · rw [hs2, hs1]
        by_cases hname : serie.name = []
        · simp [seriesPuts, List.filterMap_cons, hname, applyPuts_nil]
        · simp [seriesPuts, List.filterMap_cons, hname, applyPuts_cons,
            applyPuts_nil]
      · rw [hf2, hf1]
        simp only [fieldsPuts, List.flatMap_cons, applyPuts_append]
      · rw [hd2, hd1]
        simp only [dataPuts, List.flatMap_cons, applyPuts_append]

theorem writeTx_isOk (env : Env) (batch : List Series) (d : DB) :
    (∃ d', writeTx env batch d = .ok d') ↔ txOk env batch = true := by
  induction batch generalizing d with
  | nil => simp [writeTx, txOk]
  | cons serie rest ih =>
    rw [txOk, List.all_cons]
    cases hw : writeSerie env serie d with
    | error e =>
      have h1 : ¬serieOk env serie = true := by
        intro hc
        obtain ⟨d1, hd1⟩ := (writeSerie_isOk d).mpr hc
        rw [hw] at hd1
        exact absurd hd1 (by simp)
      simp only [writeTx, hw]
      constructor
      · rintro ⟨d', hd'⟩
        exact absurd hd' (by simp)
      · intro hc
        exact absurd (Bool.and_elim_left hc) h1
    | ok d1 =>
      have h1 : serieOk env serie = true := (writeSerie_isOk d).mp ⟨d1, hw⟩
      simp only [writeTx, hw, h1, Bool.true_and]
      exact ih d1

/-- A series entry with an empty name is invisible to the transaction. -/
theorem writeTx_skip_empty (env : Env) (pre post : List Series)
    (entry : Series) (hname : entry.name = []) (d : DB) :
    writeTx env (pre ++ entry :: post) d = writeTx env (pre ++ post) d := by
  induction pre generalizing d with
  | nil =>
    simp only [List.nil_append, writeTx, writeSerie, if_pos hname]
  | cons serie rest ih =>
    simp only [List.cons_append, writeTx]
    cases hw : writeSerie env serie d with
    | error e => rfl
    | ok d1 => exact ih d1

theorem alookup_mem {α : Type} {k : Bytes} {l : List (Bytes × α)} {v : α}
    (h : alookup k l = some v) : (k, v) ∈ l := by
  induction l with
  | nil => simp [alookup] at h
  | cons hd t ih =>
    obtain ⟨k', v'⟩ := hd
    by_cases he : k' = k
    · subst he
      simp only [alookup, if_pos rfl] at h
      cases h
      exact List.mem_cons_self _ _
    · simp only [alookup, if_neg he] at h
      exact List.mem_cons.mpr (Or.inr (ih h))

theorem mem_mput {α : Type} {p : Bytes × α} {k : Bytes} {v : α}
    {l : List (Bytes × α)} (h : p ∈ mput k v l) : p = (k, v) ∨ p ∈ l := by
  induction l with
  | nil => simp [mput] at h; left; exact h
  | cons hd t ih =>
    obtain ⟨k', v'⟩ := hd
    by_cases he : k' = k
    · simp only [mput, if_pos he] at h
      rcases List.mem_cons.mp h with h1 | h1
      · left; exact h1
      · right; exact List.mem_cons.mpr (Or.inr h1)
    · simp only [mput, if_neg he] at h
      rcases List.mem_cons.mp h with h1 | h1
      · right; exact List.mem_cons.mpr (Or.inl h1)
      · rcases ih h1 with h2 | h2
        · left; exact h2
        · right; exact List.mem_cons.mpr (Or.inr h2)

/-- Well-formedness of a database file: every bucket is key-sorted, as bolt
maintains it. -/
def DB.wf (d : DB) : Bool :=
  sortedKeys d.series && sortedKeys d.fields && sortedKeys d.data

/-- Well-formedness of a shard state: every database file on disk is
well-formed. -/
def BoltShard.wf (s : BoltShard) : Bool := s.files.all fun p => p.2.wf

theorem emptyDB_wf : emptyDB.wf = true := rfl

theorem DB.eqOfBuckets {d1 d2 : DB} (h1 : d1.series = d2.series)
    (h2 : d1.fields = d2.fields) (h3 : d1.data = d2.data) : d1 = d2 := by
  cases d1; cases d2
  simp_all

theorem wf_lookup {s : BoltShard} {k : Bytes} {d : DB}
    (hs : s.wf = true) (h : alookup k s.files = some d) : d.wf = true := by
  have hmem := alookup_mem h
  exact List.all_eq_true.mp hs (k, d) hmem

theorem openStep_baseDir (database : Bytes) (s : BoltShard) :
    (openStep database s).baseDir = s.baseDir := by
  unfold openStep
  by_cases hc : s.dbs.contains database
  · rw [if_pos hc]
  · rw [if_neg hc]

theorem openStep_closed (database : Bytes) (s : BoltShard) :
    (openStep database s).closed = s.closed := by
  unfold openStep
  by_cases hc : s.dbs.contains database
  · rw [if_pos hc]
  · rw [if_neg hc]

theorem openStep_contains (database : Bytes) (s : BoltShard) :
    (openStep database s).dbs.contains database = true := by
  unfold openStep
  by_cases hc : s.dbs.contains database
  · rw [if_pos hc]; exact hc
  · rw [if_neg hc]
    simp

theorem openStep_wf (database : Bytes) {s : BoltShard} (h : s.wf = true) :
    (openStep database s).wf = true := by
  unfold openStep
  by_cases hc : s.dbs.contains database
  · rw [if_pos hc]; exact h
  · rw [if_neg hc]
    by_cases hf : (alookup (dbPath s database) s.files).isSome
    · simpa [BoltShard.wf, hf] using h
    · simp only [BoltShard.wf, hf, Bool.false_eq_true, ite_false,
        List.all_eq_true]
      intro p hp
      rcases mem_mput hp with h1 | h1
      · rw [h1]; rfl
      · exact List.all_eq_true.mp h p h1

theorem writeTx_wf {env : Env} {batch : List Series} {d d' : DB}
    (h : writeTx env batch d = .ok d') (hd : d.wf = true) : d'.wf = true := by
  obtain ⟨hs, hf, hdd⟩ := writeTx_ok h
  simp only [DB.wf, Bool.and_eq_true] at hd ⊢
  exact ⟨⟨by rw [hs]; exact sortedKeys_applyPuts _ hd.1.1,
    by rw [hf]; exact sortedKeys_applyPuts _ hd.1.2⟩,
    by rw [hdd]; exact sortedKeys_applyPuts _ hd.2⟩

/-- Lookup in the contents after a successful transaction: the last put of
the batch wins, otherwise the old binding stays. -/
theorem writeTx_alookup {env : Env} {batch : List Series} {d d' : DB}
    (h : writeTx env batch d = .ok d') (k : Bytes) :
    alookup k d'.series = (lastPut (seriesPuts batch) k).or (alookup k d.series) ∧
    alookup k d'.fields = (lastPut (fieldsPuts batch) k).or (alookup k d.fields) ∧
    alookup k d'.data = (lastPut (dataPuts batch) k).or (alookup k d.data) := by
  obtain ⟨hs, hf, hdd⟩ := writeTx_ok h
  refine ⟨?_, ?_, ?_⟩
  · rw [hs]; exact alookup_applyPuts _ _ k
  · rw [hf]; exact alookup_applyPuts _ _ k
  · rw [hdd]; exact alookup_applyPuts _ _ k

theorem Write_closed {env : Env} {database : Bytes} {batch : List Series}
    {s : BoltShard} (h : s.closed = true) :
    Write env database batch s = (some "shard closed", s) := by
  simp [Write, h]

theorem Write_open_error {env : Env} {database : Bytes} {batch : List Series}
    {s : BoltShard} {e : String} (hc : s.closed = false)
    (he : writeTx env batch
        ((alookup (dbPath s database) (openStep database s).files).getD emptyDB)
        = .error e) :
    Write env database batch s = (some e, openStep database s) := by
  simp only [Write, hc, Bool.false_eq_true, ite_false, he]

theorem Write_open_ok {env : Env} {database : Bytes} {batch : List Series}
    {s : BoltShard} {d' : DB} (hc : s.closed = false)
    (hok : writeTx env batch
        ((alookup (dbPath s database) (openStep database s).files).getD emptyDB)
        = .ok d') :
    Write env database batch s =
      (none, { openStep database s with
               files := mput (dbPath s database) d' (openStep database s).files }) := by
  simp only [Write, hc, Bool.false_eq_true, ite_false, hok]

theorem openStep_of_contains {database : Bytes} {s : BoltShard}
    (h : s.dbs.contains database = true) : openStep database s = s := by
  unfold openStep
  rw [if_pos h]

theorem BoltShard.eqOfFields {s1 s2 : BoltShard}
    (h1 : s1.baseDir = s2.baseDir) (h2 : s1.dbs = s2.dbs)
    (h3 : s1.closed = s2.closed) (h4 : s1.files = s2.files) : s1 = s2 := by
  cases s1; cases s2
  simp_all

theorem Write_cached_ok {env : Env} {database : Bytes} {batch : List Series}
    {s : BoltShard} {d' : DB} (hc : s.closed = false)
    (hcont : s.dbs.contains database = true)
    (hok : writeTx env batch
        ((alookup (dbPath s database) s.files).getD emptyDB) = .ok d') :
    Write env database batch s =
      (none, { s with files := mput (dbPath s database) d' s.files }) := by
  have hop : openStep database s = s := openStep_of_contains hcont
  have hok' : writeTx env batch
      ((alookup (dbPath s database) (openStep database s).files).getD emptyDB)
      = .ok d' := by rw [hop]; exact hok
  have h := Write_open_ok hc hok'
  rw [hop] at h
  exact h

/-- The contents the transaction starts from are well-formed whenever the
shard is. -/
theorem openStep_contents_wf (database : Bytes) {s : BoltShard}
    (hwf : s.wf = true) :
    ((alookup (dbPath s database) (openStep database s).files).getD emptyDB).wf
      = true := by
  cases hl : alookup (dbPath s database) (openStep database s).files with
  | none => exact emptyDB_wf
  | some d =>
    simp only [Option.getD_some]
    exact wf_lookup (openStep_wf database hwf) hl

/-- Re-running an identical successful write replays the same put sequences
and lands on the same state. -/
theorem Write_idem {env : Env} {database : Bytes} {batch : List Series}
    {s : BoltShard} (hwf : s.wf = true)
    (h1 : (Write env database batch s).1 = none) :
    Write env database batch (Write env database batch s).2 =
      (none, (Write env database batch s).2) := by
  cases hcl : s.closed with
  | true =>
    rw [Write_closed hcl] at h1
    simp at h1
  | false =>
    cases htx : writeTx env batch
        ((alookup (dbPath s database) (openStep database s).files).getD emptyDB) with
    | error e =>
      rw [Write_open_error hcl htx] at h1
      simp at h1
    | ok d1 =>
      have hW := Write_open_ok hcl htx
      rw [hW]
      simp only
      have hd0wf := openStep_contents_wf database hwf
      -- state after the first write
      have hs2closed :
          ({ openStep database s with
             files := mput (dbPath s database) d1 (openStep database s).files
           } : BoltShard).closed = false := by
        show (openStep database s).closed = false
        rw [openStep_closed, hcl]
      have hs2contains :
          ({ openStep database s with
             files := mput (dbPath s database) d1 (openStep database s).files
           } : BoltShard).dbs.contains database = true := by
        show (openStep database s).dbs.contains database = true
        exact openStep_contains database s
      have hs2path :
          dbPath ({ openStep database s with
             files := mput (dbPath s database) d1 (openStep database s).files
           } : BoltShard) database = dbPath s database := by
        show (openStep database s).baseDir ++ [47] ++ database
          = s.baseDir ++ [47] ++ database
        rw [openStep_baseDir]
      -- the second transaction succeeds and reproduces the same contents
      have htxok : txOk env batch = true := (writeTx_isOk env batch _).mp ⟨d1, htx⟩
      obtain ⟨d2, htx2⟩ := (writeTx_isOk env batch d1).mpr htxok
      have hd1wf : d1.wf = true := writeTx_wf htx hd0wf
      have hd2d1 : d2 = d1 := by
        obtain ⟨ha1, hb1, hc1⟩ :=
          writeTx_ok (d := (alookup (dbPath s database)
            (openStep database s).files).getD emptyDB) htx
        obtain ⟨ha2, hb2, hc2⟩ := writeTx_ok htx2
        simp only [DB.wf, Bool.and_eq_true] at hd0wf
        refine DB.eqOfBuckets ?_ ?_ ?_
        · rw [ha2, ha1, applyPuts_applyPuts _ hd0wf.1.1, ← ha1]
        · rw [hb2, hb1, applyPuts_applyPuts _ hd0wf.1.2, ← hb1]
        · rw [hc2, hc1, applyPuts_applyPuts _ hd0wf.2, ← hc1]
      -- evaluate the second Write
      have hok2 : writeTx env batch
          ((alookup (dbPath ({ openStep database s with
               files := mput (dbPath s database) d1 (openStep database s).files
             } : BoltShard) database)
            ({ openStep database s with
               files := mput (dbPath s database) d1 (openStep database s).files
             } : BoltShard).files).getD emptyDB) = .ok d1 := by
        rw [hs2path]
        show writeTx env batch
          ((alookup (dbPath s database)
            (mput (dbPath s database) d1 (openStep database s).files)).getD emptyDB)
          = .ok d1
        rw [alookup_mput_self]
        show writeTx env batch d1 = .ok d1
        rw [hd2d1] at htx2
        exact htx2
      rw [Write_cached_ok hs2closed hs2contains hok2]
      have hfe : mput (dbPath ({ openStep database s with
            files := mput (dbPath s database) d1 (openStep database s).files
          } : BoltShard) database) d1
          ({ openStep database s with
            files := mput (dbPath s database) d1 (openStep database s).files
          } : BoltShard).files
          = ({ openStep database s with
            files := mput (dbPath s database) d1 (openStep database s).files
          } : BoltShard).files := by
        rw [hs2path]
        show mput (dbPath s database) d1
            (mput (dbPath s database) d1 (openStep database s).files)
          = mput (dbPath s database) d1 (openStep database s).files
        exact mput_mput_same _ _ _
      rw [hfe]

/-- The series name a data or fields bucket key exhibits: the bytes before
the first zero separator. -/
def parseName (k : Bytes) : Bytes := k.takeWhile fun b => decide (b ≠ 0)

/-- The field name a data bucket key exhibits: the bytes after the series
name, the separator and the 16 fixed-width timestamp and sequence bytes. -/
def parseField (k : Bytes) : Bytes := k.drop ((parseName k).length + 17)

theorem parseName_sep {name r : Bytes} (h : 0 ∉ name) :
    parseName (name ++ 0 :: r) = name := by
  induction name with
  | nil => simp [parseName]
  | cons a t ih =>
    have ha : a ≠ 0 := fun hc => h (by simp [hc])
    have ht : 0 ∉ t := fun hc => h (by simp [hc])
    have hih := ih ht
    simp only [parseName, List.cons_append, List.takeWhile_cons] at hih ⊢
    rw [if_pos (show decide (a ≠ 0) = true by simpa using ha), hih]

theorem dataKeyGo_eq_sep (name : Bytes) (ts : Int) (sq : Nat) (f : Bytes) :
    dataKeyGo name ts sq f
      = name ++ 0 :: (beBytes 8 (itou ts) ++ beBytes 8 sq ++ f) := by
  simp [dataKeyGo, keyBufferBytes]

theorem parseName_dataKeyGo {name : Bytes} (ts : Int) (sq : Nat) (f : Bytes)
    (h : 0 ∉ name) : parseName (dataKeyGo name ts sq f) = name := by
  rw [dataKeyGo_eq_sep]
  exact parseName_sep h

theorem parseField_dataKeyGo {name : Bytes} (ts : Int) (sq : Nat) (f : Bytes)
    (h : 0 ∉ name) : parseField (dataKeyGo name ts sq f) = f := by
  unfold parseField
  rw [parseName_dataKeyGo ts sq f h]
  have hsplit : dataKeyGo name ts sq f
      = (name ++ [0] ++ beBytes 8 (itou ts) ++ beBytes 8 sq) ++ f := rfl
  rw [hsplit]
  refine List.drop_left' ?_
  simp [beBytes_length]

/-- Two separated concatenations with zero-free name parts agree only
componentwise. -/
theorem sep_inj {a b x y : Bytes} (ha : 0 ∉ a) (hb : 0 ∉ b)
    (h : a ++ 0 :: x = b ++ 0 :: y) : a = b ∧ x = y := by
  have hn : a = b := by
    have h1 := parseName_sep (r := x) ha
    have h2 := parseName_sep (r := y) hb
    rw [← h1, ← h2, h]
  subst hn
  refine ⟨rfl, ?_⟩
  have := List.append_cancel_left h
  simpa using this

theorem fieldsKey_inj {a b x y : Bytes} (ha : 0 ∉ a) (hb : 0 ∉ b)
    (h : fieldsKey a x = fieldsKey b y) : a = b ∧ x = y := by
  have h' : a ++ 0 :: x = b ++ 0 :: y := by
    simpa [fieldsKey] using h
  exact sep_inj ha hb h'

theorem mem_seriesPuts {batch : List Series} {k v : Bytes}
    (h : (k, v) ∈ seriesPuts batch) :
    ∃ serie ∈ batch, serie.name ≠ [] ∧ k = serie.name ∧ v = [] := by
  rw [seriesPuts, List.mem_filterMap] at h
  obtain ⟨serie, hs, hv⟩ := h
  by_cases hname : serie.name = []
  · simp [hname] at hv
  · simp only [hname, ite_false, Option.some.injEq, Prod.mk.injEq] at hv
    exact ⟨serie, hs, hname, hv.1.symm, hv.2.symm⟩

theorem seriesPuts_val {batch : List Series} :
    ∀ kv ∈ seriesPuts batch, kv.2 = ([] : Bytes) := by
  intro kv hkv
  obtain ⟨k, v⟩ := kv
  obtain ⟨_, _, _, _, hv⟩ := mem_seriesPuts hkv
  exact hv

theorem seriesPuts_key_mem {batch : List Series} {serie : Series}
    (hs : serie ∈ batch) (hn : serie.name ≠ []) :
    serie.name ∈ (seriesPuts batch).map Prod.fst := by
  rw [List.mem_map]
  refine ⟨(serie.name, []), ?_, rfl⟩
  rw [seriesPuts, List.mem_filterMap]
  exact ⟨serie, hs, by simp [hn]⟩

theorem mem_fieldsPuts {batch : List Series} {k v : Bytes}
    (h : (k, v) ∈ fieldsPuts batch) :
    ∃ serie ∈ batch, serie.name ≠ [] ∧
      ∃ p ∈ serie.points, ∃ fv ∈ serie.fields.zip p.values,
        fv.2.isNull = false ∧ k = fieldsKey serie.name fv.1 ∧ v = [] := by
  rw [fieldsPuts, List.mem_flatMap] at h
  obtain ⟨serie, hs, hmem⟩ := h
  by_cases hname : serie.name = []
  · simp [hname] at hmem
  · simp only [hname, ite_false] at hmem
    rw [serieFieldsPuts, List.mem_flatMap] at hmem
    obtain ⟨p, hp, hmem2⟩ := hmem
    rw [fieldsPutsOfPairs, List.mem_filterMap] at hmem2
    obtain ⟨fv, hfv, hv⟩ := hmem2
    by_cases hnull : fv.2.isNull
    · simp [hnull] at hv
    · simp only [hnull, Bool.false_eq_true, ite_false, Option.some.injEq,
        Prod.mk.injEq] at hv
      exact ⟨serie, hs, hname, p, hp, fv, hfv,
        Bool.eq_false_iff.mpr hnull, hv.1.symm, hv.2.symm⟩

theorem fieldsPuts_val {batch : List Series} :
    ∀ kv ∈ fieldsPuts batch, kv.2 = ([] : Bytes) := by
  intro kv hkv
  obtain ⟨k, v⟩ := kv
  obtain ⟨_, _, _, _, _, _, _, _, _, hv⟩ := mem_fieldsPuts hkv
  exact hv

theorem fieldsPuts_key_mem {batch : List Series} {serie : Series} {p : Point}
    {fv : Bytes × FieldValue} (hs : serie ∈ batch) (hn : serie.name ≠ [])
    (hp : p ∈ serie.points) (hfv : fv ∈ serie.fields.zip p.values)
    (hnull : fv.2.isNull = false) :
    fieldsKey serie.name fv.1 ∈ (fieldsPuts batch).map Prod.fst := by
  rw [List.mem_map]
  refine ⟨(fieldsKey serie.name fv.1, []), ?_, rfl⟩
  rw [fieldsPuts, List.mem_flatMap]
  refine ⟨serie, hs, ?_⟩
  simp only [hn, ite_false]
  rw [serieFieldsPuts, List.mem_flatMap]
  refine ⟨p, hp, ?_⟩
  rw [fieldsPutsOfPairs, List.mem_filterMap]
  exact ⟨fv, hfv, by simp [hnull]⟩

theorem mem_dataPuts {batch : List Series} {k v : Bytes}
    (h : (k, v) ∈ dataPuts batch) :
    ∃ serie ∈ batch, serie.name ≠ [] ∧
      ∃ p ∈ serie.points, ∃ fv ∈ serie.fields.zip p.values,
        fv.2.isNull = false ∧
        k = dataKeyGo serie.name p.timestamp p.sequenceNumber fv.1 := by
  rw [dataPuts, List.mem_flatMap] at h
  obtain ⟨serie, hs, hmem⟩ := h
  by_cases hname : serie.name = []
  · simp [hname] at hmem
  · simp only [hname, ite_false] at hmem
    rw [serieDataPuts, List.mem_flatMap] at hmem
    obtain ⟨p, hp, hmem2⟩ := hmem
    rw [dataPutsOfPairs, List.mem_filterMap] at hmem2
    obtain ⟨fv, hfv, hv⟩ := hmem2
    by_cases hnull : fv.2.isNull
    · simp [hnull] at hv
    · simp only [hnull, Bool.false_eq_true, ite_false, Option.some.injEq,
        Prod.mk.injEq] at hv
      exact ⟨serie, hs, hname, p, hp, fv, hfv,
        Bool.eq_false_iff.mpr hnull, hv.1.symm⟩

theorem dataPuts_key_mem {batch : List Series} {serie : Series} {p : Point}
    {fv : Bytes × FieldValue} (hs : serie ∈ batch) (hn : serie.name ≠ [])
    (hp : p ∈ serie.points) (hfv : fv ∈ serie.fields.zip p.values)
    (hnull : fv.2.isNull = false) :
    dataKeyGo serie.name p.timestamp p.sequenceNumber fv.1
      ∈ (dataPuts batch).map Prod.fst := by
  rw [List.mem_map]
  refine ⟨(dataKeyGo serie.name p.timestamp p.sequenceNumber fv.1,
    fv.2.marshal.toOption.getD []), ?_, rfl⟩
  rw [dataPuts, List.mem_flatMap]
  refine ⟨serie, hs, ?_⟩
  simp only [hn, ite_false]
  rw [serieDataPuts, List.mem_flatMap]
  refine ⟨p, hp, ?_⟩
  rw [dataPutsOfPairs, List.mem_filterMap]
  exact ⟨fv, hfv, by simp [hnull, dataKeyGo]⟩

theorem lastPut_isSome_of_mem {α : Type} {P : List (Bytes × α)} {k : Bytes}
    (h : k ∈ P.map Prod.fst) : (lastPut P k).isSome = true := by
  cases hl : lastPut P k with
  | none => exact absurd h (lastPut_none_not_mem hl)
  | some v => rfl

/-- Every mutation of a batch is observable in given contents: the series
entry of every non-empty-name entry, and the fields and data entries of
every non-null field value of every point. -/
def applied (batch : List Series) (d : DB) : Prop :=
  ∀ serie ∈ batch, serie.name ≠ [] →
    alookup serie.name d.series = some [] ∧
    ∀ p ∈ serie.points, ∀ fv ∈ serie.fields.zip p.values,
      fv.2.isNull = false →
        alookup (fieldsKey serie.name fv.1) d.fields = some [] ∧
        (alookup (dataKeyGo serie.name p.timestamp p.sequenceNumber fv.1)
          d.data).isSome = true

/-- A successful transaction applies every mutation of its batch. -/
theorem writeTx_applied {env : Env} {batch : List Series} {d d' : DB}
    (h : writeTx env batch d = .ok d') : applied batch d' := by
  intro serie hs hn
  obtain ⟨hser, hfld, hdat⟩ := writeTx_alookup h serie.name
  constructor
  · rw [hser, lastPut_const seriesPuts_val (seriesPuts_key_mem hs hn)]
    rfl
  · intro p hp fv hfv hnull
    obtain ⟨_, hfld2, hdat2⟩ :=
      writeTx_alookup h (fieldsKey serie.name fv.1)
    obtain ⟨_, _, hdat3⟩ :=
      writeTx_alookup h (dataKeyGo serie.name p.timestamp p.sequenceNumber fv.1)
    constructor
    · rw [hfld2, lastPut_const fieldsPuts_val
        (fieldsPuts_key_mem hs hn hp hfv hnull)]
      rfl
    · rw [hdat3, Option.isSome_or,
        lastPut_isSome_of_mem (dataPuts_key_mem hs hn hp hfv hnull)]
      rfl

/-- One Write call of a history: its bucket-creation environment, target
database and batch. -/
structure WCall where
  env : Env
  database : Bytes
  batch : List Series

/-- Run a sequence of Write calls against a shard, keeping the state of each
call whether it succeeded or not (a failed call still performs its lazy-open
side effect, and a closed-shard call changes nothing). -/
def runWrites (ws : List WCall) (s : BoltShard) : BoltShard :=
  ws.foldl (fun t w => (Write w.env w.database w.batch t).2) s

/-- No zero byte inside the series name: the caller precondition of the key
encoding. -/
def serieNameOk (serie : Series) : Bool :=
  serie.name.all fun b => decide (b ≠ 0)

def batchNamesOk (batch : List Series) : Bool := batch.all serieNameOk

def noNullNames (ws : List WCall) : Bool := ws.all fun w => batchNamesOk w.batch

/-- Within one series entry, every value at a field position named `f` of a
series named `n` is null. -/
def serieAllNullAt (n f : Bytes) (serie : Series) : Bool :=
  !(decide (serie.name = n)) ||
    serie.points.all fun p =>
      (serie.fields.zip p.values).all fun fv =>
        !(decide (fv.1 = f)) || fv.2.isNull

def batchAllNullAt (n f : Bytes) (batch : List Series) : Bool :=
  batch.all (serieAllNullAt n f)

/-- Across a whole history, field `f` of series `n` is null on every point
ever written. -/
def neverNonNull (ws : List WCall) (n f : Bytes) : Bool :=
  ws.all fun w => batchAllNullAt n f w.batch

/-- The index invariant of one database file: every data key has its parsed
series name registered in the series bucket and its parsed (series, field)
pair registered in the fields bucket. -/
def dbInv (d : DB) : Prop :=
  ∀ k : Bytes, (alookup k d.data).isSome = true →
    (alookup (parseName k) d.series).isSome = true ∧
    (alookup (fieldsKey (parseName k) (parseField k)) d.fields).isSome = true

/-- The index invariant over every database file of the shard. -/
def shardInv (s : BoltShard) : Prop :=
  ∀ q d, alookup q s.files = some d → dbInv d

/-- No fields bucket of any database file of the shard holds an entry for
the pair (n, f). -/
def fieldAbsent (n f : Bytes) (s : BoltShard) : Prop :=
  ∀ q : Bytes,
    alookup (fieldsKey n f) ((alookup q s.files).getD emptyDB).fields = none

theorem dbInv_emptyDB : dbInv emptyDB := by
  intro k h
  simp [alookup, emptyDB] at h

theorem nullFree_of_all {name : Bytes}
    (h : (name.all fun b => decide (b ≠ 0)) = true) : 0 ∉ name := by
  intro hc
  have := List.all_eq_true.mp h 0 hc
  simp at this

theorem lastPut_eq_none_of_not_mem {α : Type} {P : List (Bytes × α)}
    {k : Bytes} (h : k ∉ P.map Prod.fst) : lastPut P k = none := by
  cases hl : lastPut P k with
  | none => rfl
  | some v =>
    exact absurd (List.mem_map.mpr ⟨(k, v), lastPut_some_mem hl, rfl⟩) h

theorem dbInv_writeTx {env : Env} {batch : List Series} {d d' : DB}
    (hnames : batchNamesOk batch = true) (hd : dbInv d)
    (h : writeTx env batch d = .ok d') : dbInv d' := by
  intro k hk
  obtain ⟨_, _, hdat⟩ := writeTx_alookup h k
  rw [hdat, Option.isSome_or, Bool.or_eq_true] at hk
  rcases hk with hk | hk
  · obtain ⟨v, hv⟩ := Option.isSome_iff_exists.mp hk
    obtain ⟨serie, hs, hn, p, hp, fv, hfv, hnull, hkey⟩ :=
      mem_dataPuts (lastPut_some_mem hv)
    have hfree : 0 ∉ serie.name :=
      nullFree_of_all (List.all_eq_true.mp hnames serie hs)
    subst hkey
    rw [parseName_dataKeyGo _ _ _ hfree, parseField_dataKeyGo _ _ _ hfree]
    obtain ⟨hser2, _, _⟩ := writeTx_alookup h serie.name
    obtain ⟨_, hfld2, _⟩ := writeTx_alookup h (fieldsKey serie.name fv.1)
    constructor
    · rw [hser2, lastPut_const seriesPuts_val (seriesPuts_key_mem hs hn)]
      rfl
    · rw [hfld2, lastPut_const fieldsPuts_val
        (fieldsPuts_key_mem hs hn hp hfv hnull)]
      rfl
  · obtain ⟨h1, h2⟩ := hd k hk
    obtain ⟨hser2, _, _⟩ := writeTx_alookup h (parseName k)
    obtain ⟨_, hfld2, _⟩ :=
      writeTx_alookup h (fieldsKey (parseName k) (parseField k))
    constructor
    · rw [hser2, Option.isSome_or, h1, Bool.or_true]
    · rw [hfld2, Option.isSome_or, h2, Bool.or_true]

theorem shardInv_openStep (database : Bytes) {s : BoltShard}
    (hinv : shardInv s) : shardInv (openStep database s) := by
  unfold openStep
  by_cases hc : s.dbs.contains database
  · rw [if_pos hc]; exact hinv
  · rw [if_neg hc]
    by_cases hf : (alookup (dbPath s database) s.files).isSome
    · simpa [hf] using hinv
    · simp only [hf, Bool.false_eq_true, ite_false]
      intro q d hq
      by_cases hqe : q = dbPath s database
      · subst hqe
        rw [alookup_mput_self] at hq
        cases hq
        exact dbInv_emptyDB
      · rw [alookup_mput_ne _ _ hqe] at hq
        exact hinv q d hq

theorem shardInv_write {env : Env} {database : Bytes} {batch : List Series}
    {s : BoltShard} (hnames : batchNamesOk batch = true)
    (hinv : shardInv s) : shardInv (Write env database batch s).2 := by
  cases hcl : s.closed with
  | true => rw [Write_closed hcl]; exact hinv
  | false =>
    cases htx : writeTx env batch
        ((alookup (dbPath s database) (openStep database s).files).getD emptyDB) with
    | error e =>
      rw [Write_open_error hcl htx]
      exact shardInv_openStep database hinv
    | ok d' =>
      rw [Write_open_ok hcl htx]
      intro q d hq
      by_cases hqe : q = dbPath s database
      · subst hqe
        rw [show ({ openStep database s with
            files := mput (dbPath s database) d' (openStep database s).files
          } : BoltShard).files
            = mput (dbPath s database) d' (openStep database s).files from rfl,
          alookup_mput_self] at hq
        cases hq
        have hd0 : dbInv ((alookup (dbPath s database)
            (openStep database s).files).getD emptyDB) := by
          cases hl : alookup (dbPath s database) (openStep database s).files with
          | none => exact dbInv_emptyDB
          | some d0 =>
            simpa using shardInv_openStep database hinv _ d0 hl
        exact dbInv_writeTx hnames hd0 htx
      · rw [show ({ openStep database s with
            files := mput (dbPath s database) d' (openStep database s).files
          } : BoltShard).files
            = mput (dbPath s database) d' (openStep database s).files from rfl,
          alookup_mput_ne _ _ hqe] at hq
        exact shardInv_openStep database hinv q d hq

theorem fieldAbsent_openStep (database : Bytes) {n f : Bytes} {s : BoltShard}
    (habs : fieldAbsent n f s) : fieldAbsent n f (openStep database s) := by
  unfold openStep
  by_cases hc : s.dbs.contains database
  · rw [if_pos hc]; exact habs
  · rw [if_neg hc]
    by_cases hf : (alookup (dbPath s database) s.files).isSome
    · simpa [hf] using habs
    · simp only [hf, Bool.false_eq_true, ite_false]
      intro q
      by_cases hqe : q = dbPath s database
      · subst hqe
        show alookup (fieldsKey n f)
          ((alookup (dbPath s database)
            (mput (dbPath s database) emptyDB s.files)).getD emptyDB).fields = none
        rw [alookup_mput_self]
        rfl
      · show alookup (fieldsKey n f)
          ((alookup q (mput (dbPath s database) emptyDB s.files)).getD
            emptyDB).fields = none
        rw [alookup_mput_ne _ _ hqe]
        exact habs q

theorem fieldAbsent_write {env : Env} {database : Bytes}
    {batch : List Series} {s : BoltShard} {n f : Bytes} (hn : 0 ∉ n)
    (hnames : batchNamesOk batch = true)
    (hnull : batchAllNullAt n f batch = true)
    (habs : fieldAbsent n f s) :
    fieldAbsent n f (Write env database batch s).2 := by
  cases hcl : s.closed with
  | true => rw [Write_closed hcl]; exact habs
  | false =>
    cases htx : writeTx env batch
        ((alookup (dbPath s database) (openStep database s).files).getD emptyDB) with
    | error e =>
      rw [Write_open_error hcl htx]
      exact fieldAbsent_openStep database habs
    | ok d' =>
      rw [Write_open_ok hcl htx]
      intro q
      by_cases hqe : q = dbPath s database
      · subst hqe
        show alookup (fieldsKey n f)
          ((alookup (dbPath s database)
            (mput (dbPath s database) d' (openStep database s).files)).getD
              emptyDB).fields = none
        rw [alookup_mput_self]
        simp only [Option.getD_some]
        obtain ⟨_, hfld, _⟩ := writeTx_alookup htx (fieldsKey n f)
        rw [hfld]
        have hlast : lastPut (fieldsPuts batch) (fieldsKey n f) = none := by
          cases hl : lastPut (fieldsPuts batch) (fieldsKey n f) with
          | none => rfl
          | some v =>
            obtain ⟨serie, hs, hnm, p, hp, fv, hfv, hnonnull, hkey, _⟩ :=
              mem_fieldsPuts (lastPut_some_mem hl)
            have hfree : 0 ∉ serie.name :=
              nullFree_of_all (List.all_eq_true.mp hnames serie hs)
            obtain ⟨hname, hfield⟩ := fieldsKey_inj hn hfree hkey
            have hserie := List.all_eq_true.mp hnull serie hs
            rw [serieAllNullAt, ← hname, Bool.or_eq_true] at hserie
            rcases hserie with hserie | hserie
            · simp at hserie
            · have hpp := List.all_eq_true.mp hserie p hp
              have hff := List.all_eq_true.mp hpp fv hfv
              rw [Bool.or_eq_true] at hff
              rcases hff with hff | hff
              · rw [← hfield] at hff
                simp at hff
              · rw [hnonnull] at hff
                exact absurd hff (by simp)
        rw [hlast]
        have hold := fieldAbsent_openStep database habs (dbPath s database)
        simpa using hold
      · show alookup (fieldsKey n f)
          ((alookup q
            (mput (dbPath s database) d' (openStep database s).files)).getD
              emptyDB).fields = none
        rw [alookup_mput_ne _ _ hqe]
        exact fieldAbsent_openStep database habs q

theorem runWrites_inv {ws : List WCall} {s : BoltShard}
    (hnames : noNullNames ws = true) (hinv : shardInv s) :
    shardInv (runWrites ws s) := by
  induction ws generalizing s with
  | nil => exact hinv
  | cons w ws ih =>
    rw [noNullNames, List.all_cons, Bool.and_eq_true] at hnames
    exact ih hnames.2 (shardInv_write hnames.1 hinv)

theorem runWrites_absent {ws : List WCall} {s : BoltShard} {n f : Bytes}
    (hn : 0 ∉ n) (hnames : noNullNames ws = true)
    (hnull : neverNonNull ws n f = true) (habs : fieldAbsent n f s) :
    fieldAbsent n f (runWrites ws s) := by
  induction ws generalizing s with
  | nil => exact habs
  | cons w ws ih =>
    rw [noNullNames, List.all_cons, Bool.and_eq_true] at hnames
    rw [neverNonNull, List.all_cons, Bool.and_eq_true] at hnull
    exact ih hnames.2 hnull.2 (fieldAbsent_write hn hnames.1 hnull.1 habs)

theorem pow_256_8 : (256 : Nat) ^ 8 = 2 ^ 64 := by norm_num

theorem dataKeyGo_assoc1 (name : Bytes) (ts : Int) (sq : Nat) (f : Bytes) :
    dataKeyGo name ts sq f
      = (name ++ [0]) ++ (beBytes 8 (itou ts) ++ (beBytes 8 sq ++ f)) := by
  simp [dataKeyGo, keyBufferBytes]

theorem dataKeyGo_assoc2 (name : Bytes) (ts : Int) (sq : Nat) (f : Bytes) :
    dataKeyGo name ts sq f
      = ((name ++ [0]) ++ beBytes 8 (itou ts)) ++ (beBytes 8 sq ++ f) := by
  simp [dataKeyGo, keyBufferBytes]

/-- C3: for every series name, timestamp, sequence number and field name,
the key written to the data bucket is exactly the series name bytes, one
zero byte, an 8-byte big-endian encoding of the unsigned timestamp, an
8-byte big-endian encoding of the sequence number, and the field name bytes
with no separator in front of it. -/
theorem c3_data_key_layout (name : Bytes) (ts : Int) (sq : Nat) (f : Bytes)
    (hsq : sq < 2 ^ 64) :
    ∃ T S : Bytes,
      dataKeyGo name ts sq f = name ++ [0] ++ T ++ S ++ f ∧
      T.length = 8 ∧ S.length = 8 ∧ beVal T = itou ts ∧ beVal S = sq := by
  refine ⟨beBytes 8 (itou ts), beBytes 8 sq, ?_, beBytes_length 8 _,
    beBytes_length 8 _, ?_, ?_⟩
  · simp [dataKeyGo, keyBufferBytes]
  · refine beVal_beBytes ?_
    rw [pow_256_8]
    exact itou_lt ts
  · refine beVal_beBytes ?_
    rw [pow_256_8]
    exact hsq

theorem c3_witness :
    ∃ T S : Bytes,
      dataKeyGo [97] 5 1 [102] = [97] ++ [0] ++ T ++ S ++ [102] ∧
      T.length = 8 ∧ S.length = 8 ∧ beVal T = itou 5 ∧ beVal S = 1 :=
  c3_data_key_layout [97] 5 1 [102] (by norm_num)

/-- C4: for a fixed series name without zero bytes, data keys sort by
timestamp first and sequence number second: with timestamps in the signed
64-bit range, a strictly smaller timestamp gives a byte-lexicographically
strictly smaller key whatever the sequence numbers and field names are, and
with equal timestamps a strictly smaller sequence number does. -/
theorem c4_key_ordering (name f1 f2 : Bytes) (t1 t2 : Int) (sq1 sq2 : Nat)
    (_hname : 0 ∉ name) (h1 : -(2 ^ 63) ≤ t1) (h2 : t2 < 2 ^ 63)
    (hsq2 : sq2 < 2 ^ 64) :
    (t1 < t2 →
      keyLt (dataKeyGo name t1 sq1 f1) (dataKeyGo name t2 sq2 f2) = true) ∧
    (t1 = t2 → sq1 < sq2 →
      keyLt (dataKeyGo name t1 sq1 f1) (dataKeyGo name t2 sq2 f2) = true) := by
  constructor
  · intro hlt
    rw [dataKeyGo_assoc1, dataKeyGo_assoc1, keyLt_append_left]
    refine keyLt_append_of_eq_length _ _
      (by rw [beBytes_length, beBytes_length]) ?_
    refine beBytes_keyLt (itou_mono h1 hlt h2) ?_
    rw [pow_256_8]
    exact itou_lt t2
  · intro heq hslt
    subst heq
    rw [dataKeyGo_assoc2, dataKeyGo_assoc2, keyLt_append_left]
    refine keyLt_append_of_eq_length _ _
      (by rw [beBytes_length, beBytes_length]) ?_
    refine beBytes_keyLt hslt ?_
    rw [pow_256_8]
    exact hsq2

theorem c4_witness :
    keyLt (dataKeyGo [97] 5 9 [122]) (dataKeyGo [97] 6 1 [102]) = true ∧
    keyLt (dataKeyGo [97] 6 1 [122]) (dataKeyGo [97] 6 2 [102]) = true :=
  ⟨(c4_key_ordering [97] [122] [102] 5 6 9 1 (by decide) (by decide)
      (by decide) (by norm_num)).1 (by decide),
    (c4_key_ordering [97] [122] [102] 6 6 1 2 (by decide) (by decide)
      (by decide) (by norm_num)).2 rfl (by decide)⟩

/-- C6: after the close method has run, every Write call fails with the
shard-closed error and leaves the state untouched, IsClosed reports true,
and running close again is harmless (it cannot fail and changes nothing
further). -/
theorem c6_closed_shard (s : BoltShard) (env : Env) (database : Bytes)
    (batch : List Series) :
    Write env database batch (closeAll s) = (some "shard closed", closeAll s) ∧
    (closeAll s).IsClosed = true ∧
    closeAll (closeAll s) = closeAll s :=
  ⟨Write_closed rfl, rfl, rfl⟩

/-- C7 counterexample: the claim says no operation invoked after close may
insert a handle into the cache, but Query performs no closed-flag check:
on a freshly closed shard (empty cache) a Query against database [120]
opens and caches a handle for it. -/
theorem c7_counterexample :
    (closeAll (NewBoltShard [116])).dbs = [] ∧
    (Query none [120] (closeAll (NewBoltShard [116]))).2.dbs = [[120]] := by
  constructor
  · rfl
  · rfl

/-- C7 (amended): once the shard is closed, Write fails with the
shard-closed error and performs no mutation, and DropDatabase never inserts
a handle into the cache (it can only evict); the query path however does not
consult the closed flag and may open and cache a handle even after close. -/
theorem c7_closed_terminal_amended (s : BoltShard) (env : Env)
    (database : Bytes) (batch : List Series) (h : s.IsClosed = true) :
    Write env database batch s = (some "shard closed", s) ∧
    (∀ nn, nn ∈ (DropDatabase database s).2.dbs → nn ∈ s.dbs) ∧
    (Write env database batch s).1 ≠ none := by
  refine ⟨Write_closed h, ?_, ?_⟩
  · intro nn hnn
    unfold DropDatabase at hnn
    by_cases hc : s.dbs.contains database
    · rw [if_pos hc] at hnn
      by_cases hf : (alookup (dbPath s database) s.files).isSome
      · simp only [hf, ite_true] at hnn
        exact (List.mem_filter.mp hnn).1
      · simp only [hf, Bool.false_eq_true, ite_false] at hnn
        exact (List.mem_filter.mp hnn).1
    · rw [if_neg hc] at hnn
      exact hnn
  · rw [Write_closed h]
    simp

theorem c7_witness :
    Write (fun _ => none) [100] [] (closeAll (NewBoltShard [])) =
      (some "shard closed", closeAll (NewBoltShard [])) :=
  (c7_closed_terminal_amended (closeAll (NewBoltShard [])) (fun _ => none)
    [100] [] rfl).1

/-- C8: DropDatabase with no cached handle is a successful no-op; with a
cached handle it evicts the handle from the cache and deletes the backing
file, returning the deletion error when the file removal fails, in which
case the handle is nevertheless already evicted. -/
theorem c8_drop_database (s : BoltShard) (database : Bytes) :
    (s.dbs.contains database = false → DropDatabase database s = (none, s)) ∧
    (s.dbs.contains database = true →
      (DropDatabase database s).2.dbs
          = s.dbs.filter (fun nn => decide (nn ≠ database)) ∧
      ((alookup (dbPath s database) s.files).isSome = true →
        DropDatabase database s =
          (none, { s with
            dbs := s.dbs.filter (fun nn => decide (nn ≠ database)),
            files := s.files.filter
              (fun p => decide (p.1 ≠ dbPath s database)) })) ∧
      ((alookup (dbPath s database) s.files).isSome = false →
        (DropDatabase database s).1 ≠ none ∧
        (DropDatabase database s).2
          = { s with dbs := s.dbs.filter (fun nn => decide (nn ≠ database)) })) := by
  constructor
  · intro hc
    unfold DropDatabase
    rw [if_neg (by rw [hc]; exact Bool.false_ne_true)]
  · intro hc
    refine ⟨?_, ?_, ?_⟩
    · unfold DropDatabase
      rw [if_pos hc]
      by_cases hf : (alookup (dbPath s database) s.files).isSome
      · simp only [hf, ite_true]
      · simp only [hf, Bool.false_eq_true, ite_false]
    · intro hf
      unfold DropDatabase
      rw [if_pos hc]
      simp only [hf, ite_true]
    · intro hf
      unfold DropDatabase
      rw [if_pos hc]
      simp only [hf, Bool.false_eq_true, ite_false]
      refine ⟨by simp, ?_⟩
      trivial

theorem c8_witness :
    DropDatabase [100] (NewBoltShard []) = (none, NewBoltShard []) ∧
    (DropDatabase [100] ({ baseDir := [], dbs := [[100]], closed := false,
                           files := [([47, 100], emptyDB)] } : BoltShard)).2.dbs
      = [[100]].filter (fun nn => decide (nn ≠ [100])) ∧
    (DropDatabase [100] ({ baseDir := [], dbs := [[100]], closed := false,
                           files := [] } : BoltShard)).1 ≠ none :=
  ⟨(c8_drop_database (NewBoltShard []) [100]).1 (by decide),
    ((c8_drop_database _ [100]).2 (by decide)).1,
    (((c8_drop_database _ [100]).2 (by decide)).2.2 (by decide)).1⟩

/-- C9: a batch entry whose series name is the empty string contributes no
mutations and causes no error: Write on the batch with the entry equals
Write on the batch with the entry removed, in result and in state. -/
theorem c9_skip_empty_series (env : Env) (database : Bytes) (s : BoltShard)
    (pre post : List Series) (entry : Series) (hname : entry.name = []) :
    Write env database (pre ++ entry :: post) s
      = Write env database (pre ++ post) s := by
  simp only [Write, writeTx_skip_empty env pre post entry hname]

theorem c9_witness :
    Write (fun _ => none) [100]
        ([] ++ ({ name := [], fields := [], points := [] } : Series) :: [])
        (NewBoltShard [])
      = Write (fun _ => none) [100] ([] ++ []) (NewBoltShard []) :=
  c9_skip_empty_series (fun _ => none) [100] (NewBoltShard []) [] []
    { name := [], fields := [], points := [] } rfl

/-- Sample environment with no injected bucket-creation failures. -/
def envOkW : Env := fun _ => none

/-- Sample series "a" with one non-null point on field "f". -/
def serieA : Series :=
  { name := [97], fields := [[102]],
    points := [{ timestamp := 5, sequenceNumber := 1,
                 values := [{ isNull := false, marshal := .ok [9] }] }] }

/-- Sample series "b" whose value fails to serialize. -/
def serieBad : Series :=
  { name := [98], fields := [[103]],
    points := [{ timestamp := 6, sequenceNumber := 2,
                 values := [{ isNull := false, marshal := .error "boom" }] }] }

/-- Sample series "c" whose only value on field "h" is null. -/
def serieNull : Series :=
  { name := [99], fields := [[104]],
    points := [{ timestamp := 7, sequenceNumber := 3,
                 values := [{ isNull := true, marshal := .ok [] }] }] }

/-- The contents of database file "d" after writing the one-series batch
with serieA: used by concrete checks. -/
def dbA : DB :=
  { series := [([97], [])],
    fields := [([97, 0, 102], [])],
    data := [([97, 0, 128, 0, 0, 0, 0, 0, 0, 5, 0, 0, 0, 0, 0, 0, 0, 1, 102],
      [9])] }

/-- Sample one-call history writing serieA and serieNull into database
"d". -/
def wsW : List WCall :=
  [{ env := envOkW, database := [100], batch := [serieA, serieNull] }]

/-- C5: Write is idempotent: after a successful Write of a batch, running
the identical Write again on the identical database succeeds and leaves the
whole shard state, in particular the series, fields and data bucket
contents, exactly as after the first call. -/
theorem c5_idempotent_write (env : Env) (database : Bytes)
    (batch : List Series) (s : BoltShard) (hwf : s.wf = true)
    (hfirst : (Write env database batch s).1 = none) :
    Write env database batch (Write env database batch s).2
      = (none, (Write env database batch s).2) :=
  Write_idem hwf hfirst

theorem c5_witness :
    Write envOkW [100] [serieA]
        (Write envOkW [100] [serieA] (NewBoltShard [])).2
      = (none, (Write envOkW [100] [serieA] (NewBoltShard [])).2) :=
  c5_idempotent_write envOkW [100] [serieA] (NewBoltShard [])
    (by decide) (by decide)

/-- C10: a successful Write registers every non-empty series name of its
batch in the series bucket with a nil value, even for entries with zero
points or with only null field values; and a batch whose field values are
all null commits successfully on an open shard when the series and data
bucket creations succeed (no marshal is attempted, so no error can arise
from values). -/
theorem c10_series_registration :
    (∀ (env : Env) (database : Bytes) (batch : List Series) (s : BoltShard),
      (Write env database batch s).1 = none →
      ∀ serie ∈ batch, serie.name ≠ [] →
        alookup serie.name
          ((alookup (dbPath s database)
            (Write env database batch s).2.files).getD emptyDB).series
          = some []) ∧
    (∀ (env : Env) (database : Bytes) (batch : List Series) (s : BoltShard),
      env .series = none → env .data = none → s.closed = false →
      (batch.all fun serie => serie.points.all fun p =>
        (serie.fields.zip p.values).all fun fv => fv.2.isNull) = true →
      (Write env database batch s).1 = none) := by
  constructor
  · intro env database batch s hok serie hs hn
    cases hcl : s.closed with
    | true => rw [Write_closed hcl] at hok; simp at hok
    | false =>
      cases htx : writeTx env batch
          ((alookup (dbPath s database) (openStep database s).files).getD
            emptyDB) with
      | error e => rw [Write_open_error hcl htx] at hok; simp at hok
      | ok d' =>
        rw [Write_open_ok hcl htx]
        show alookup serie.name
          ((alookup (dbPath s database)
            (mput (dbPath s database) d' (openStep database s).files)).getD
              emptyDB).series = some []
        rw [alookup_mput_self]
        exact (writeTx_applied htx serie hs hn).1
  · intro env database batch s henv1 henv2 hcl hnullb
    have htxok : txOk env batch = true := by
      rw [txOk, List.all_eq_true]
      intro serie hs
      rw [serieOk, Bool.or_eq_true]
      right
      rw [henv1, henv2]
      simp only [Option.isNone_none, Bool.true_and]
      rw [List.all_eq_true]
      intro p hp
      rw [List.all_eq_true]
      intro fv hfv
      have h1 := List.all_eq_true.mp hnullb serie hs
      have h2 := List.all_eq_true.mp h1 p hp
      have h3 := List.all_eq_true.mp h2 fv hfv
      simp [pairOk, h3]
    obtain ⟨d', htx⟩ := (writeTx_isOk env batch
      ((alookup (dbPath s database) (openStep database s).files).getD
        emptyDB)).mpr htxok
    rw [Write_open_ok hcl htx]

theorem c10_witness :
    alookup [99]
        ((alookup [47, 100]
          (Write envOkW [100] [serieNull] (NewBoltShard [])).2.files).getD
            emptyDB).series = some [] ∧
    (Write envOkW [100] [serieNull] (NewBoltShard [])).1 = none :=
  ⟨c10_series_registration.1 envOkW [100] [serieNull] (NewBoltShard [])
      (by decide) serieNull (by simp) (by decide),
    c10_series_registration.2 envOkW [100] [serieNull] (NewBoltShard [])
      rfl rfl rfl (by decide)⟩

/-- C1: Write applies its batch atomically under db.Update: when the
transaction body fails anywhere (an injected bucket-creation failure or a
value serialization failure, possibly partway through a multi-series batch)
the same error is returned and the shard is left exactly as after the
lazy-open step, so the target database contents are unchanged and no
series, fields or data entry of the batch is observable; when the body
succeeds the new contents are committed and every mutation of the batch is
observable. -/
theorem c1_atomic_write (env : Env) (database : Bytes) (batch : List Series)
    (s : BoltShard) (hclosed : s.closed = false) :
    (∀ e, writeTx env batch
        ((alookup (dbPath s database) (openStep database s).files).getD
          emptyDB) = .error e →
      Write env database batch s = (some e, openStep database s)) ∧
    (∀ d', writeTx env batch
        ((alookup (dbPath s database) (openStep database s).files).getD
          emptyDB) = .ok d' →
      Write env database batch s =
        (none, { openStep database s with
                 files := mput (dbPath s database) d'
                   (openStep database s).files }) ∧
      applied batch d') :=
  ⟨fun _ he => Write_open_error hclosed he,
    fun _ hok => ⟨Write_open_ok hclosed hok, writeTx_applied hok⟩⟩

theorem c1_witness :
    Write envOkW [100] [serieA, serieBad] (NewBoltShard [])
        = (some "boom", openStep [100] (NewBoltShard [])) ∧
    Write envOkW [100] [serieA] (NewBoltShard []) =
        (none, { openStep [100] (NewBoltShard []) with
                 files := mput (dbPath (NewBoltShard []) [100]) dbA
                   (openStep [100] (NewBoltShard [])).files }) ∧
    applied [serieA] dbA :=
  ⟨(c1_atomic_write envOkW [100] [serieA, serieBad] (NewBoltShard []) rfl).1
      "boom" (by decide),
    (c1_atomic_write envOkW [100] [serieA] (NewBoltShard []) rfl).2
      dbA (by decide)⟩

/-- C2: after any sequence of Write calls against a fresh shard whose
batches carry zero-free series names, every database file satisfies the
index invariant: each data bucket key names a series registered in the
series bucket and a (series, field) pair registered in the fields bucket;
and since a null field value produces neither a data nor a fields entry, a
pair (n, f) that is null on every point of every batch of the history has
no fields entry in any database file. -/
theorem c2_index_invariant (ws : List WCall) (bd n f : Bytes)
    (hnames : noNullNames ws = true) (hn : 0 ∉ n)
    (hnull : neverNonNull ws n f = true) :
    shardInv (runWrites ws (NewBoltShard bd)) ∧
    fieldAbsent n f (runWrites ws (NewBoltShard bd)) := by
  constructor
  · refine runWrites_inv hnames ?_
    intro q d hq
    simp [NewBoltShard, alookup] at hq
  · refine runWrites_absent hn hnames hnull ?_
    intro q
    rfl

theorem c2_witness :
    alookup (fieldsKey [99] [104])
        ((alookup [47, 100]
          (runWrites wsW (NewBoltShard [])).files).getD emptyDB).fields
      = none :=
  (c2_index_invariant wsW [] [99] [104] (by decide) (by decide)
    (by decide)).2 [47, 100]
